import Mathlib

/-!
Verification of the `Headless::Logic::GA::Trivial` genetic-algorithm engine
(`geneticalgorithm.hpp`) and of the selection helpers of its example driver
(`examples/geneticalgorithm/trivial.cpp`).

The engine keeps two parallel arrays `_pool` (candidate handles) and `_score`
(fitness values); every exchange performed by the sort moves both arrays at
identical indices.  We therefore model the pair of arrays as one list of
(handle, score) pairs: one swap of the pair list is exactly the source's
lockstep swap of both arrays.  Machine doubles are modelled as `Rat` (the
engine only compares and adds scores), `unsigned int` indices as `Nat`.
Loops the C++ runs unboundedly are given explicit fuel; the termination
theorems show the stated fuel always suffices, which is the
shallow-embedding form of the source's termination argument.
-/

namespace HeadlessGA

/-- Score stored at index `k` of the pool/score pair list (0 when out of
bounds; every use is proved in bounds). Models `_score[k]`. -/
def scoreAt {C : Type} (A : List (C × ℚ)) (k : ℕ) : ℚ :=
  (A[k]?.map Prod.snd).getD 0

/-- Lockstep exchange of positions `i` and `j`, modelling the swap of
`_score[i]/_score[j]` together with `_pool[i]/_pool[j]` in
`Trivial::partition` (lines 211-216). An out-of-bounds index leaves the
list unchanged; the partition proof shows every swap it performs is in
bounds. -/
def swapL {α : Type} (A : List α) (i j : ℕ) : List α :=
  if h : i < A.length ∧ j < A.length then
    (A.set i (A.get ⟨j, h.2⟩)).set j (A.get ⟨i, h.1⟩)
  else A

theorem length_swapL {α : Type} (A : List α) (i j : ℕ) :
    (swapL A i j).length = A.length := by
  unfold swapL
  split <;> simp

/-- Helper for the swap permutation: replacing the element at `m` by `a` and
putting the old element in front is a permutation of putting `a` in front. -/
theorem cons_set_perm {α : Type} :
    ∀ (as : List α) (m : ℕ) (c a : α), as[m]? = some c →
      List.Perm (c :: as.set m a) (a :: as) := by
  intro as
  induction as with
  | nil => intro m c a h; simp at h
  | cons b bs ih =>
    intro m c a h
    cases m with
    | zero =>
      simp at h
      subst h
      simpa using List.Perm.swap a b bs
    | succ m =>
      simp at h
      have h1 := ih m c a h
      calc
        List.Perm (c :: (b :: bs).set (m + 1) a) (b :: c :: bs.set m a) := by
          simpa using List.Perm.swap b c (bs.set m a)
        List.Perm _ (b :: a :: bs) := List.Perm.cons b h1
        List.Perm _ (a :: b :: bs) := List.Perm.swap a b bs

theorem set_set_perm {α : Type} :
    ∀ (A : List α) (i j : ℕ) (x y : α), A[i]? = some x → A[j]? = some y →
      List.Perm ((A.set i y).set j x) A := by
  intro A
  induction A with
  | nil => intro i j x y hx _; simp at hx
  | cons a as ih =>
    intro i j x y hx hy
    cases i with
    | zero =>
      simp at hx
      subst hx
      cases j with
      | zero =>
        simp at hy
        subst hy
        simp
      | succ j =>
        simp at hy ⊢
        exact cons_set_perm as j y a hy
    | succ i =>
      simp at hx
      cases j with
      | zero =>
        simp at hy
        subst hy
        simpa using cons_set_perm as i x a hx
      | succ j =>
        simp at hy ⊢
        exact ih i j x y hx hy

theorem swapL_perm {α : Type} (A : List α) (i j : ℕ) :
    List.Perm (swapL A i j) A := by
  unfold swapL
  split
  · next h =>
    exact set_set_perm A i j _ _ (List.getElem?_eq_getElem h.1)
      (List.getElem?_eq_getElem h.2)
  · exact List.Perm.refl A

theorem getElem?_swapL_fst {α : Type} (A : List α) (i j : ℕ)
    (hi : i < A.length) (hj : j < A.length) :
    (swapL A i j)[i]? = A[j]? := by
  rw [swapL, dif_pos ⟨hi, hj⟩]
  by_cases hij : i = j
  · subst hij
    rw [List.getElem?_set_eq (by simpa using hi), List.getElem?_eq_getElem hi]
    simp
  · rw [List.getElem?_set_ne (fun h => hij h.symm),
      List.getElem?_set_eq hi, List.getElem?_eq_getElem hj]
    simp

theorem getElem?_swapL_snd {α : Type} (A : List α) (i j : ℕ)
    (hi : i < A.length) (hj : j < A.length) :
    (swapL A i j)[j]? = A[i]? := by
  rw [swapL, dif_pos ⟨hi, hj⟩]
  rw [List.getElem?_set_eq (by simpa using hj), List.getElem?_eq_getElem hi]
  simp

theorem getElem?_swapL_other {α : Type} (A : List α) (i j k : ℕ)
    (hki : k ≠ i) (hkj : k ≠ j) :
    (swapL A i j)[k]? = A[k]? := by
  unfold swapL
  split
  · rw [List.getElem?_set_ne (fun h => hkj h.symm),
      List.getElem?_set_ne (fun h => hki h.symm)]
  · rfl

theorem scoreAt_swapL_fst {C : Type} (A : List (C × ℚ)) (i j : ℕ)
    (hi : i < A.length) (hj : j < A.length) :
    scoreAt (swapL A i j) i = scoreAt A j := by
  unfold scoreAt
  rw [getElem?_swapL_fst A i j hi hj]

theorem scoreAt_swapL_snd {C : Type} (A : List (C × ℚ)) (i j : ℕ)
    (hi : i < A.length) (hj : j < A.length) :
    scoreAt (swapL A i j) j = scoreAt A i := by
  unfold scoreAt
  rw [getElem?_swapL_snd A i j hi hj]

theorem scoreAt_swapL_other {C : Type} (A : List (C × ℚ)) (i j k : ℕ)
    (hki : k ≠ i) (hkj : k ≠ j) :
    scoreAt (swapL A i j) k = scoreAt A k := by
  unfold scoreAt
  rw [getElem?_swapL_other A i j k hki hkj]

/-- Structural worker for the upward scan: the first argument is the
number of positions left to look at, which makes the recursion structural
so that concrete instances evaluate inside the kernel. -/
def findUpAux {C : Type} (A : List (C × ℚ)) (pivot : ℚ) : ℕ → ℕ → ℕ
  | 0, i => i
  | fuel + 1, i =>
    if i < A.length ∧ scoreAt A i < pivot then findUpAux A pivot fuel (i + 1)
    else i

/-- Upward scan of `Trivial::partition` (lines 202-204):
`do { ++i } while (_score[i] < pivot);` — starting the check at index `i`,
advance while the score is below the pivot and return the first index where
it is not.  The bounds guard is an artifact of totality: the partition
invariant proof shows the scan always stops inside the array.
`findUp_eq` restates the definition as the direct recurrence. -/
def findUp {C : Type} (A : List (C × ℚ)) (pivot : ℚ) (i : ℕ) : ℕ :=
  findUpAux A pivot (A.length - i) i

theorem findUp_eq {C : Type} (A : List (C × ℚ)) (pivot : ℚ) (i : ℕ) :
    findUp A pivot i =
      if i < A.length ∧ scoreAt A i < pivot then findUp A pivot (i + 1)
      else i := by
  unfold findUp
  cases hf : A.length - i with
  | zero =>
    rw [if_neg]
    · rfl
    · rintro ⟨hlt, -⟩
      omega
  | succ fuel =>
    show (if i < A.length ∧ scoreAt A i < pivot
        then findUpAux A pivot fuel (i + 1) else i) = _
    have : A.length - (i + 1) = fuel := by omega
    rw [this]

/-- Downward scan of `Trivial::partition` (lines 205-207):
`do { --j } while (_score[j] > pivot);` — starting the check at index `j`,
move down while the score is above the pivot.  The `0 < j` part of the
stop condition is the totality rendering of the `unsigned` decrement; the
invariant proof shows the C scan never wraps below zero.
`findDown_eq` restates the definition as the direct recurrence. -/
def findDown {C : Type} (A : List (C × ℚ)) (pivot : ℚ) : ℕ → ℕ
  | 0 => 0
  | j + 1 => if pivot < scoreAt A (j + 1) then findDown A pivot j else j + 1

theorem findDown_eq {C : Type} (A : List (C × ℚ)) (pivot : ℚ) (j : ℕ) :
    findDown A pivot j =
      if 0 < j ∧ pivot < scoreAt A j then findDown A pivot (j - 1)
      else j := by
  cases j with
  | zero =>
    rw [if_neg]
    · rfl
    · rintro ⟨hlt, -⟩
      omega
  | succ j =>
    show (if pivot < scoreAt A (j + 1) then findDown A pivot j else j + 1) = _
    by_cases h : pivot < scoreAt A (j + 1)
    · rw [if_pos h, if_pos ⟨Nat.succ_pos j, h⟩]
      rfl
    · rw [if_neg h, if_neg (fun hc => h hc.2)]

theorem findUp_ge {C : Type} (A : List (C × ℚ)) (pivot : ℚ) :
    ∀ i, i ≤ findUp A pivot i := by
  have H : ∀ n i, A.length - i ≤ n → i ≤ findUp A pivot i := by
    intro n
    induction n with
    | zero =>
      intro i hle
      rw [findUp_eq]
      split
      · next hcond => omega
      · exact Nat.le_refl i
    | succ n ih =>
      intro i hle
      rw [findUp_eq]
      split
      · next hcond =>
        exact Nat.le_trans (Nat.le_succ i) (ih (i + 1) (by omega))
      · exact Nat.le_refl i
  intro i
  exact H A.length i (by omega)

theorem findUp_below {C : Type} (A : List (C × ℚ)) (pivot : ℚ) :
    ∀ i k, i ≤ k → k < findUp A pivot i → scoreAt A k < pivot := by
  have H : ∀ n i, A.length - i ≤ n →
      ∀ k, i ≤ k → k < findUp A pivot i → scoreAt A k < pivot := by
    intro n
    induction n with
    | zero =>
      intro i hle k hik hk
      rw [findUp_eq] at hk
      split at hk
      · next hcond => omega
      · omega
    | succ n ih =>
      intro i hle k hik hk
      rw [findUp_eq] at hk
      split at hk
      · next hcond =>
        rcases Nat.eq_or_lt_of_le hik with h | h
        · exact h ▸ hcond.2
        · exact ih (i + 1) (by omega) k h hk
      · omega
  intro i
  exact H A.length i (by omega)

theorem findUp_stop {C : Type} (A : List (C × ℚ)) (pivot : ℚ) :
    ∀ i, ¬(findUp A pivot i < A.length ∧ scoreAt A (findUp A pivot i) < pivot) := by
  have H : ∀ n i, A.length - i ≤ n →
      ¬(findUp A pivot i < A.length ∧ scoreAt A (findUp A pivot i) < pivot) := by
    intro n
    induction n with
    | zero =>
      intro i hle
      rw [findUp_eq]
      split
      · next hcond => omega
      · assumption
    | succ n ih =>
      intro i hle
      rw [findUp_eq]
      split
      · next hcond => exact ih (i + 1) (by omega)
      · assumption
  intro i
  exact H A.length i (by omega)

theorem findUp_le_of_stop {C : Type} (A : List (C × ℚ)) (pivot : ℚ) :
    ∀ i m, i ≤ m → ¬(m < A.length ∧ scoreAt A m < pivot) →
      findUp A pivot i ≤ m := by
  have H : ∀ n i, A.length - i ≤ n →
      ∀ m, i ≤ m → ¬(m < A.length ∧ scoreAt A m < pivot) →
        findUp A pivot i ≤ m := by
    intro n
    induction n with
    | zero =>
      intro i hle m him hm
      rw [findUp_eq]
      split
      · next hcond => omega
      · exact him
    | succ n ih =>
      intro i hle m him hm
      rw [findUp_eq]
      split
      · next hcond =>
        have : i ≠ m := fun h => hm (h ▸ hcond)
        exact ih (i + 1) (by omega) m (by omega) hm
      · exact him
  intro i
  exact H A.length i (by omega)

theorem findDown_le {C : Type} (A : List (C × ℚ)) (pivot : ℚ) :
    ∀ j, findDown A pivot j ≤ j := by
  intro j
  induction j using Nat.strong_induction_on with
  | _ j ih =>
    rw [findDown_eq]
    split
    · next hcond => exact Nat.le_trans (ih (j - 1) (by omega)) (by omega)
    · exact Nat.le_refl j

theorem findDown_above {C : Type} (A : List (C × ℚ)) (pivot : ℚ) :
    ∀ j k, findDown A pivot j < k → k ≤ j → pivot < scoreAt A k := by
  intro j
  induction j using Nat.strong_induction_on with
  | _ j ih =>
    intro k hk hkj
    rw [findDown_eq] at hk
    split at hk
    · next hcond =>
      rcases Nat.eq_or_lt_of_le hkj with h | h
      · exact h ▸ hcond.2
      · exact ih (j - 1) (by omega) k hk (by omega)
    · omega

theorem findDown_stop {C : Type} (A : List (C × ℚ)) (pivot : ℚ) :
    ∀ j, ¬(0 < findDown A pivot j ∧ pivot < scoreAt A (findDown A pivot j)) := by
  intro j
  induction j using Nat.strong_induction_on with
  | _ j ih =>
    rw [findDown_eq]
    split
    · exact ih (j - 1) (by omega)
    · assumption

theorem findDown_ge_of_stop {C : Type} (A : List (C × ℚ)) (pivot : ℚ) :
    ∀ j m, m ≤ j → ¬(0 < m ∧ pivot < scoreAt A m) →
      m ≤ findDown A pivot j := by
  intro j
  induction j using Nat.strong_induction_on with
  | _ j ih =>
    intro m hmj hm
    rw [findDown_eq]
    split
    · next hcond =>
      have : m ≠ j := fun h => hm (h ▸ hcond)
      exact ih (j - 1) (by omega) m (by omega) hm
    · exact hmj

/-- Outer loop of `Trivial::partition` (lines 201-217).  One iteration runs
the two scans, returns `j` when the cursors have crossed (`i >= j`), and
otherwise performs the lockstep exchange and continues; the C++ `for(;;)`
has no bound, so the iteration count is fuel and the partition theorem
shows the fuel provided by `partitionHL` always suffices. -/
def partitionLoop {C : Type} (A : List (C × ℚ)) (pivot : ℚ)
    (iStart jStart : ℕ) : ℕ → Option (List (C × ℚ) × ℕ)
  | 0 => none
  | fuel + 1 =>
    let i := findUp A pivot iStart
    let j := findDown A pivot jStart
    if j ≤ i then some (A, j)
    else partitionLoop (swapL A i j) pivot (i + 1) (j - 1) fuel

/-- Models `Trivial::partition(lo, hi)` (lines 196-219): pivot is
`_score[lo]`, the cursor `i` first checks index `lo` (the C code starts it
at `lo - 1` and pre-increments) and the cursor `j` first checks `hi`. -/
def partitionHL {C : Type} (A : List (C × ℚ)) (lo hi : ℕ) :
    Option (List (C × ℚ) × ℕ) :=
  partitionLoop A (scoreAt A lo) lo hi (hi + 2 - lo)

/-- Models `Trivial::qsort(lo, hi)` (lines 179-194): partition, then recurse
into both sub-ranges, smaller one first.  The recursion depth is fuel; the
termination theorem shows `hi - lo + 1` always suffices. -/
def qsortFuel {C : Type} (A : List (C × ℚ)) (lo hi : ℕ) :
    ℕ → Option (List (C × ℚ))
  | 0 => if lo < hi then none else some A
  | fuel + 1 =>
    if lo < hi then
      match partitionHL A lo hi with
      | none => none
      | some (A1, pivot) =>
        if pivot - lo < hi - (pivot + 1) then
          (qsortFuel A1 lo pivot fuel).bind fun A2 =>
            qsortFuel A2 (pivot + 1) hi fuel
        else
          (qsortFuel A1 (pivot + 1) hi fuel).bind fun A2 =>
            qsortFuel A2 lo pivot fuel
    else some A

/-- Main invariant lemma for the partition loop.  `lo`/`hi` are the fixed
range bounds, `iS`/`jS` the positions where the two scans of the current
iteration start checking.  The classical Hoare invariants (processed
borders below/above the pivot, a stopper for each scan) are preserved by
every iteration; the loop returns within the given fuel and yields a split
point `j` with `lo ≤ j < hi` and the two-sided bound property. -/
theorem partitionLoop_spec {C : Type} (lo hi : ℕ) :
    ∀ (fuel : ℕ) (A : List (C × ℚ)) (pivot : ℚ) (iS jS : ℕ),
      hi < A.length → lo < hi →
      lo ≤ iS → jS ≤ hi → iS ≤ jS + 1 →
      (∀ k, lo ≤ k → k < iS → scoreAt A k ≤ pivot) →
      (∀ k, jS < k → k ≤ hi → pivot ≤ scoreAt A k) →
      (∃ m, iS ≤ m ∧ m ≤ hi ∧ pivot ≤ scoreAt A m) →
      (∃ m, lo ≤ m ∧ m ≤ jS ∧ scoreAt A m ≤ pivot) →
      (jS < hi ∨ (iS = lo ∧ scoreAt A lo = pivot)) →
      jS + 2 ≤ iS + fuel →
      ∃ A2 j, partitionLoop A pivot iS jS fuel = some (A2, j) ∧
        lo ≤ j ∧ j < hi ∧
        A2.length = A.length ∧ List.Perm A2 A ∧
        (∀ k, k < lo → A2[k]? = A[k]?) ∧
        (∀ k, hi < k → A2[k]? = A[k]?) ∧
        (∀ k, lo ≤ k → k ≤ j → scoreAt A2 k ≤ pivot) ∧
        (∀ k, j < k → k ≤ hi → pivot ≤ scoreAt A2 k) := by
  intro fuel
  induction fuel with
  | zero =>
    intro A pivot iS jS _ _ _ _ hiSjS _ _ _ _ _ hfuel
    omega
  | succ fuel ih =>
    intro A pivot iS jS hn hlohi hloiS hjShi hiSjS hb hc he hf hg hfuel
    obtain ⟨me, hme1, hme2, hme3⟩ := he
    obtain ⟨mf, hmf1, hmf2, hmf3⟩ := hf
    have hi_ge : iS ≤ findUp A pivot iS := findUp_ge A pivot iS
    have hi_le : findUp A pivot iS ≤ me :=
      findUp_le_of_stop A pivot iS me hme1
        (fun hcontra => absurd hcontra.2 (not_lt.mpr hme3))
    have hi_lt_n : findUp A pivot iS < A.length :=
      lt_of_le_of_lt hi_le (lt_of_le_of_lt hme2 hn)
    have hi_hi : findUp A pivot iS ≤ hi := le_trans hi_le hme2
    have hi_piv : pivot ≤ scoreAt A (findUp A pivot iS) := by
      rcases not_and_or.mp (findUp_stop A pivot iS) with h | h
      · exact absurd hi_lt_n h
      · exact not_lt.mp h
    have hj_le : findDown A pivot jS ≤ jS := findDown_le A pivot jS
    have hj_ge : mf ≤ findDown A pivot jS :=
      findDown_ge_of_stop A pivot jS mf hmf2
        (fun hcontra => absurd hcontra.2 (not_lt.mpr hmf3))
    have hj_lo : lo ≤ findDown A pivot jS := le_trans hmf1 hj_ge
    have hj_hi : findDown A pivot jS ≤ hi := le_trans hj_le hjShi
    have hj_lt_n : findDown A pivot jS < A.length := lt_of_le_of_lt hj_hi hn
    have hj_piv : scoreAt A (findDown A pivot jS) ≤ pivot := by
      rcases not_and_or.mp (findDown_stop A pivot jS) with h | h
      · have hj0 : findDown A pivot jS = 0 := by omega
        have hmf0 : mf = 0 := by omega
        rw [hj0]
        rw [hmf0] at hmf3
        exact hmf3
      · exact not_lt.mp h
    by_cases hji : findDown A pivot jS ≤ findUp A pivot iS
    · -- cursors crossed: the loop returns (A, j)
      have hjhi : findDown A pivot jS < hi := by
        rcases hg with hgs | ⟨hgi, hgp⟩
        · exact lt_of_le_of_lt hj_le hgs
        · have hi_eq : findUp A pivot iS = iS := by
            rw [findUp_eq, if_neg]
            rintro ⟨-, hlt⟩
            rw [hgi, hgp] at hlt
            exact lt_irrefl _ hlt
          have : findDown A pivot jS ≤ lo := by
            rw [hi_eq, hgi] at hji
            exact hji
          omega
      refine ⟨A, findDown A pivot jS, ?_, hj_lo, hjhi, rfl, List.Perm.refl A,
        fun k _ => rfl, fun k _ => rfl, ?_, ?_⟩
      · show (if findDown A pivot jS ≤ findUp A pivot iS
            then some (A, findDown A pivot jS)
            else partitionLoop (swapL A (findUp A pivot iS) (findDown A pivot jS))
              pivot (findUp A pivot iS + 1) (findDown A pivot jS - 1) fuel) =
          some (A, findDown A pivot jS)
        rw [if_pos hji]
      · intro k hk1 hk2
        by_cases hkiS : k < iS
        · exact hb k hk1 hkiS
        · push_neg at hkiS
          rcases lt_or_eq_of_le (le_trans hk2 hji) with hki | hki
          · exact le_of_lt (findUp_below A pivot iS k hkiS hki)
          · have : k = findDown A pivot jS := le_antisymm hk2 (hki ▸ hji)
            rw [this]
            exact hj_piv
      · intro k hk1 hk2
        by_cases hkjS : k ≤ jS
        · exact le_of_lt (findDown_above A pivot jS k hk1 hkjS)
        · push_neg at hkjS
          exact hc k hkjS hk2
    · -- exchange and continue
      push_neg at hji
      have hswlen : (swapL A (findUp A pivot iS) (findDown A pivot jS)).length
          = A.length := length_swapL A _ _
      have hsw_fst : scoreAt (swapL A (findUp A pivot iS) (findDown A pivot jS))
          (findUp A pivot iS) = scoreAt A (findDown A pivot jS) :=
        scoreAt_swapL_fst A _ _ hi_lt_n hj_lt_n
      have hsw_snd : scoreAt (swapL A (findUp A pivot iS) (findDown A pivot jS))
          (findDown A pivot jS) = scoreAt A (findUp A pivot iS) :=
        scoreAt_swapL_snd A _ _ hi_lt_n hj_lt_n
      obtain ⟨A2, jres, heq, hr1, hr2, hr3, hr4, hr5, hr6, hr7, hr8⟩ :=
        ih (swapL A (findUp A pivot iS) (findDown A pivot jS)) pivot
          (findUp A pivot iS + 1) (findDown A pivot jS - 1)
          (by rw [hswlen]; exact hn) hlohi
          (by omega) (by omega) (by omega)
          (by
            intro k hk1 hk2
            rcases lt_or_eq_of_le (Nat.lt_succ_iff.mp hk2) with hki | hki
            · rw [scoreAt_swapL_other A _ _ k (by omega) (by omega)]
              by_cases hkiS : k < iS
              · exact hb k hk1 hkiS
              · push_neg at hkiS
                exact le_of_lt (findUp_below A pivot iS k hkiS hki)
            · rw [hki, hsw_fst]
              exact hj_piv)
          (by
            intro k hk1 hk2
            have hkj : findDown A pivot jS ≤ k := by omega
            rcases lt_or_eq_of_le hkj with hki | hki
            · rw [scoreAt_swapL_other A _ _ k (by omega) (by omega)]
              by_cases hkjS : k ≤ jS
              · exact le_of_lt (findDown_above A pivot jS k hki hkjS)
              · push_neg at hkjS
                exact hc k hkjS hk2
            · rw [← hki, hsw_snd]
              exact hi_piv)
          ⟨findDown A pivot jS, by omega, hj_hi, by rw [hsw_snd]; exact hi_piv⟩
          ⟨findUp A pivot iS, by omega, by omega, by rw [hsw_fst]; exact hj_piv⟩
          (Or.inl (by omega))
          (by omega)
      refine ⟨A2, jres, ?_, hr1, hr2, by rw [hr3, hswlen],
        hr4.trans (swapL_perm A _ _), ?_, ?_, hr7, hr8⟩
      · show (if findDown A pivot jS ≤ findUp A pivot iS
            then some (A, findDown A pivot jS)
            else partitionLoop (swapL A (findUp A pivot iS) (findDown A pivot jS))
              pivot (findUp A pivot iS + 1) (findDown A pivot jS - 1) fuel) =
          some (A2, jres)
        rw [if_neg (not_le.mpr hji)]
        exact heq
      · intro k hk
        rw [hr5 k hk]
        exact getElem?_swapL_other A _ _ k (by omega) (by omega)
      · intro k hk
        rw [hr6 k hk]
        exact getElem?_swapL_other A _ _ k (by omega) (by omega)

/-- Specification of `Trivial::partition`: the split point lies strictly
inside the range, the pair list is permuted with everything outside
`[lo, hi]` untouched, and the two sides of the split are bounded by the
pivot score `_score[lo]`. -/
theorem partitionHL_spec {C : Type} (A : List (C × ℚ)) (lo hi : ℕ)
    (hn : hi < A.length) (hlohi : lo < hi) :
    ∃ A2 j, partitionHL A lo hi = some (A2, j) ∧
      lo ≤ j ∧ j < hi ∧
      A2.length = A.length ∧ List.Perm A2 A ∧
      (∀ k, k < lo → A2[k]? = A[k]?) ∧
      (∀ k, hi < k → A2[k]? = A[k]?) ∧
      (∀ k, lo ≤ k → k ≤ j → scoreAt A2 k ≤ scoreAt A lo) ∧
      (∀ k, j < k → k ≤ hi → scoreAt A lo ≤ scoreAt A2 k) := by
  unfold partitionHL
  exact partitionLoop_spec lo hi (hi + 2 - lo) A (scoreAt A lo) lo hi hn hlohi
    (Nat.le_refl lo) (Nat.le_refl hi) (by omega)
    (fun k hk1 hk2 => absurd hk2 (not_lt.mpr hk1))
    (fun k hk1 hk2 => absurd hk1 (not_lt.mpr hk2))
    ⟨lo, Nat.le_refl lo, le_of_lt hlohi, le_refl _⟩
    ⟨lo, Nat.le_refl lo, le_of_lt hlohi, le_refl _⟩
    (Or.inr ⟨rfl, rfl⟩)
    (by omega)

theorem scoreAt_congr {C : Type} {A B : List (C × ℚ)} {k : ℕ}
    (h : A[k]? = B[k]?) : scoreAt A k = scoreAt B k := by
  unfold scoreAt
  rw [h]

theorem scoreAt_of_getElem? {C : Type} {A : List (C × ℚ)} {k : ℕ}
    {x : C × ℚ} (h : A[k]? = some x) : scoreAt A k = x.2 := by
  unfold scoreAt
  rw [h]
  rfl

theorem exists_getElem? {α : Type} (A : List α) (k : ℕ) (h : k < A.length) :
    ∃ x, A[k]? = some x :=
  ⟨_, List.getElem?_eq_getElem h⟩

/-- List permuted with everything outside `[lo, hi]` pointwise unchanged:
the slices covering `[lo, hi]` are themselves permutations of one another. -/
theorem middle_perm {α : Type} (A B : List α) (lo hi : ℕ) (hlohi : lo ≤ hi)
    (hperm : List.Perm B A)
    (hlow : ∀ k, k < lo → B[k]? = A[k]?)
    (hhigh : ∀ k, hi < k → B[k]? = A[k]?) :
    List.Perm ((B.drop lo).take (hi + 1 - lo)) ((A.drop lo).take (hi + 1 - lo)) := by
  have hlen : B.length = A.length := hperm.length_eq
  have htake : B.take lo = A.take lo := by
    apply List.ext_getElem?
    intro n
    by_cases hn : n < lo
    · rw [List.getElem?_take_of_lt hn, List.getElem?_take_of_lt hn]
      exact hlow n hn
    · rw [List.getElem?_eq_none_iff.mpr (by simp; omega),
        List.getElem?_eq_none_iff.mpr (by simp; omega)]
  have hdrop : B.drop (hi + 1) = A.drop (hi + 1) := by
    apply List.ext_getElem?
    intro n
    rw [List.getElem?_drop, List.getElem?_drop]
    exact hhigh (hi + 1 + n) (by omega)
  have hsplit : ∀ L : List α,
      L = L.take lo ++ ((L.drop lo).take (hi + 1 - lo) ++ L.drop (hi + 1)) := by
    intro L
    conv_lhs => rw [← List.take_append_drop lo L]
    congr 1
    conv_lhs => rw [← List.take_append_drop (hi + 1 - lo) (L.drop lo)]
    congr 1
    rw [List.drop_drop]
    congr 1
    omega
  have hBA : List.Perm
      (B.take lo ++ ((B.drop lo).take (hi + 1 - lo) ++ B.drop (hi + 1)))
      (A.take lo ++ ((A.drop lo).take (hi + 1 - lo) ++ A.drop (hi + 1))) := by
    rw [← hsplit B, ← hsplit A]
    exact hperm
  rw [htake, hdrop] at hBA
  have h1 := (List.perm_append_left_iff (A.take lo)).mp hBA
  exact (List.perm_append_right_iff (A.drop (hi + 1))).mp h1

/-- Transfer of a uniform bound on the entries of positions `[lo, hi]`
across a permutation that leaves every position outside `[lo, hi]`
unchanged. -/
theorem range_bound_transfer {α : Type} (A B : List α) (lo hi : ℕ)
    (P : α → Prop)
    (hperm : List.Perm B A)
    (hlow : ∀ k, k < lo → B[k]? = A[k]?)
    (hhigh : ∀ k, hi < k → B[k]? = A[k]?)
    (hA : ∀ k, lo ≤ k → k ≤ hi → ∀ x, A[k]? = some x → P x) :
    ∀ k, lo ≤ k → k ≤ hi → ∀ x, B[k]? = some x → P x := by
  intro k hk1 hk2 x hx
  have hmem : x ∈ (B.drop lo).take (hi + 1 - lo) := by
    have hidx : ((B.drop lo).take (hi + 1 - lo))[k - lo]? = some x := by
      rw [List.getElem?_take_of_lt (by omega), List.getElem?_drop,
        show lo + (k - lo) = k by omega]
      exact hx
    exact List.getElem?_mem hidx
  have hmem2 : x ∈ (A.drop lo).take (hi + 1 - lo) :=
    (middle_perm A B lo hi (by omega) hperm hlow hhigh).mem_iff.mp hmem
  obtain ⟨t, ht⟩ := List.mem_iff_getElem?.mp hmem2
  have htlt : t < hi + 1 - lo := by
    by_contra hcon
    push_neg at hcon
    rw [List.getElem?_eq_none_iff.mpr (by simp; omega)] at ht
    exact Option.noConfusion ht
  rw [List.getElem?_take_of_lt htlt, List.getElem?_drop] at ht
  exact hA (lo + t) (by omega) (by omega) x ht

/-- Combination step of the quicksort proof: a range bounded on both sides
of a split point and sorted on each side is sorted as a whole. -/
theorem combine_sorted {C : Type} (pv : ℚ) (lo p hi : ℕ)
    (A3 : List (C × ℚ))
    (hlower : ∀ k, lo ≤ k → k ≤ p → scoreAt A3 k ≤ pv)
    (hupper : ∀ k, p < k → k ≤ hi → pv ≤ scoreAt A3 k)
    (hs1 : ∀ k1 k2, lo ≤ k1 → k1 ≤ k2 → k2 ≤ p → scoreAt A3 k1 ≤ scoreAt A3 k2)
    (hs2 : ∀ k1 k2, p + 1 ≤ k1 → k1 ≤ k2 → k2 ≤ hi → scoreAt A3 k1 ≤ scoreAt A3 k2) :
    ∀ k1 k2, lo ≤ k1 → k1 ≤ k2 → k2 ≤ hi → scoreAt A3 k1 ≤ scoreAt A3 k2 := by
  intro k1 k2 h1 h2 h3
  by_cases hk1p : k1 ≤ p
  · by_cases hk2p : k2 ≤ p
    · exact hs1 k1 k2 h1 h2 hk2p
    · exact le_trans (hlower k1 h1 hk1p) (hupper k2 (by omega) h3)
  · exact hs2 k1 k2 (by omega) h2 h3

/-- Full specification of `Trivial::qsort` over the range `[lo, hi]`:
with fuel `hi - lo + 1` (hypothesis `hi + 1 ≤ lo + fuel`) it returns, the
result is a permutation of the input with every position outside the range
untouched, and the scores inside the range are in ascending order. -/
theorem qsortFuel_spec {C : Type} :
    ∀ (fuel : ℕ) (A : List (C × ℚ)) (lo hi : ℕ), hi < A.length →
      hi + 1 ≤ lo + fuel →
      ∃ A2, qsortFuel A lo hi fuel = some A2 ∧
        A2.length = A.length ∧ List.Perm A2 A ∧
        (∀ k, k < lo → A2[k]? = A[k]?) ∧
        (∀ k, hi < k → A2[k]? = A[k]?) ∧
        (∀ k1 k2, lo ≤ k1 → k1 ≤ k2 → k2 ≤ hi →
          scoreAt A2 k1 ≤ scoreAt A2 k2) := by
  intro fuel
  induction fuel with
  | zero =>
    intro A lo hi hn hfuel
    refine ⟨A, ?_, rfl, List.Perm.refl A, fun k _ => rfl, fun k _ => rfl, ?_⟩
    · show (if lo < hi then none else some A) = some A
      rw [if_neg (by omega)]
    · intro k1 k2 h1 h2 h3
      have hk : k1 = k2 := by omega
      rw [hk]
  | succ fuel ih =>
    intro A lo hi hn hfuel
    by_cases hlh : lo < hi
    case neg =>
      refine ⟨A, ?_, rfl, List.Perm.refl A, fun k _ => rfl, fun k _ => rfl, ?_⟩
      · show (if lo < hi then _ else some A) = some A
        rw [if_neg hlh]
      · intro k1 k2 h1 h2 h3
        have hk : k1 = k2 := by omega
        rw [hk]
    case pos =>
      obtain ⟨A1, p, heq, hplo, hphi, hlen1, hperm1, hlow1, hhigh1,
        hlower1, hupper1⟩ := partitionHL_spec A lo hi hn hlh
      by_cases hb : p - lo < hi - (p + 1)
      · -- smaller left side: sort [lo, p], then [p+1, hi]
        obtain ⟨A2, hqs1eq, hlen2, hperm2, hlow2, hhigh2, hsort2⟩ :=
          ih A1 lo p (by rw [hlen1]; omega) (by omega)
        obtain ⟨A3, hqs2eq, hlen3, hperm3, hlow3, hhigh3, hsort3⟩ :=
          ih A2 (p + 1) hi (by rw [hlen2, hlen1]; omega) (by omega)
        have hA2lower : ∀ k, lo ≤ k → k ≤ p → scoreAt A2 k ≤ scoreAt A lo := by
          intro k hk1 hk2
          obtain ⟨x, hx⟩ := exists_getElem? A2 k (by rw [hlen2, hlen1]; omega)
          rw [scoreAt_of_getElem? hx]
          refine range_bound_transfer A1 A2 lo p (fun y => y.2 ≤ scoreAt A lo)
            hperm2 hlow2 hhigh2 ?_ k hk1 hk2 x hx
          intro q hq1 hq2 y hy
          rw [← scoreAt_of_getElem? hy]
          exact hlower1 q hq1 hq2
        have hA2upper : ∀ k, p < k → k ≤ hi → scoreAt A lo ≤ scoreAt A2 k := by
          intro k hk1 hk2
          rw [scoreAt_congr (hhigh2 k hk1)]
          exact hupper1 k hk1 hk2
        have hA3lower : ∀ k, lo ≤ k → k ≤ p → scoreAt A3 k ≤ scoreAt A lo := by
          intro k hk1 hk2
          rw [scoreAt_congr (hlow3 k (by omega))]
          exact hA2lower k hk1 hk2
        have hA3upper : ∀ k, p < k → k ≤ hi → scoreAt A lo ≤ scoreAt A3 k := by
          intro k hk1 hk2
          obtain ⟨x, hx⟩ := exists_getElem? A3 k
            (by rw [hlen3, hlen2, hlen1]; omega)
          rw [scoreAt_of_getElem? hx]
          refine range_bound_transfer A2 A3 (p + 1) hi
            (fun y => scoreAt A lo ≤ y.2) hperm3 hlow3 hhigh3 ?_ k
            (by omega) hk2 x hx
          intro q hq1 hq2 y hy
          rw [← scoreAt_of_getElem? hy]
          exact hA2upper q (by omega) hq2
        have hA3s1 : ∀ k1 k2, lo ≤ k1 → k1 ≤ k2 → k2 ≤ p →
            scoreAt A3 k1 ≤ scoreAt A3 k2 := by
          intro k1 k2 h1 h2 h3
          rw [scoreAt_congr (hlow3 k1 (by omega)),
            scoreAt_congr (hlow3 k2 (by omega))]
          exact hsort2 k1 k2 h1 h2 h3
        refine ⟨A3, ?_, by rw [hlen3, hlen2, hlen1],
          (hperm3.trans hperm2).trans hperm1, ?_, ?_, ?_⟩
        · show (if lo < hi then
              match partitionHL A lo hi with
              | none => none
              | some (A1, pivot) =>
                if pivot - lo < hi - (pivot + 1) then
                  (qsortFuel A1 lo pivot fuel).bind fun A2 =>
                    qsortFuel A2 (pivot + 1) hi fuel
                else
                  (qsortFuel A1 (pivot + 1) hi fuel).bind fun A2 =>
                    qsortFuel A2 lo pivot fuel
            else some A) = some A3
          rw [if_pos hlh, heq]
          show (if p - lo < hi - (p + 1) then
              (qsortFuel A1 lo p fuel).bind fun A2 =>
                qsortFuel A2 (p + 1) hi fuel
            else
              (qsortFuel A1 (p + 1) hi fuel).bind fun A2 =>
                qsortFuel A2 lo p fuel) = some A3
          rw [if_pos hb, hqs1eq]
          exact hqs2eq
        · intro k hk
          rw [hlow3 k (by omega), hlow2 k hk, hlow1 k hk]
        · intro k hk
          rw [hhigh3 k hk, hhigh2 k (by omega), hhigh1 k hk]
        · exact combine_sorted (scoreAt A lo) lo p hi A3
            hA3lower hA3upper hA3s1 hsort3
      · -- smaller right side: sort [p+1, hi], then [lo, p]
        obtain ⟨A2, hqs1eq, hlen2, hperm2, hlow2, hhigh2, hsort2⟩ :=
          ih A1 (p + 1) hi (by rw [hlen1]; omega) (by omega)
        obtain ⟨A3, hqs2eq, hlen3, hperm3, hlow3, hhigh3, hsort3⟩ :=
          ih A2 lo p (by rw [hlen2, hlen1]; omega) (by omega)
        have hA2upper : ∀ k, p < k → k ≤ hi → scoreAt A lo ≤ scoreAt A2 k := by
          intro k hk1 hk2
          obtain ⟨x, hx⟩ := exists_getElem? A2 k (by rw [hlen2, hlen1]; omega)
          rw [scoreAt_of_getElem? hx]
          refine range_bound_transfer A1 A2 (p + 1) hi
            (fun y => scoreAt A lo ≤ y.2) hperm2 hlow2 hhigh2 ?_ k
            (by omega) hk2 x hx
          intro q hq1 hq2 y hy
          rw [← scoreAt_of_getElem? hy]
          exact hupper1 q (by omega) hq2
        have hA2lower : ∀ k, lo ≤ k → k ≤ p → scoreAt A2 k ≤ scoreAt A lo := by
          intro k hk1 hk2
          rw [scoreAt_congr (hlow2 k (by omega))]
          exact hlower1 k hk1 hk2
        have hA3upper : ∀ k, p < k → k ≤ hi → scoreAt A lo ≤ scoreAt A3 k := by
          intro k hk1 hk2
          rw [scoreAt_congr (hhigh3 k hk1)]
          exact hA2upper k hk1 hk2
        have hA3lower : ∀ k, lo ≤ k → k ≤ p → scoreAt A3 k ≤ scoreAt A lo := by
          intro k hk1 hk2
          obtain ⟨x, hx⟩ := exists_getElem? A3 k
            (by rw [hlen3, hlen2, hlen1]; omega)
          rw [scoreAt_of_getElem? hx]
          refine range_bound_transfer A2 A3 lo p
            (fun y => y.2 ≤ scoreAt A lo) hperm3 hlow3 hhigh3 ?_ k hk1 hk2 x hx
          intro q hq1 hq2 y hy
          rw [← scoreAt_of_getElem? hy]
          exact hA2lower q hq1 hq2
        have hA3s2 : ∀ k1 k2, p + 1 ≤ k1 → k1 ≤ k2 → k2 ≤ hi →
            scoreAt A3 k1 ≤ scoreAt A3 k2 := by
          intro k1 k2 h1 h2 h3
          rw [scoreAt_congr (hhigh3 k1 (by omega)),
            scoreAt_congr (hhigh3 k2 (by omega))]
          exact hsort2 k1 k2 h1 h2 h3
        refine ⟨A3, ?_, by rw [hlen3, hlen2, hlen1],
          (hperm3.trans hperm2).trans hperm1, ?_, ?_, ?_⟩
        · show (if lo < hi then
              match partitionHL A lo hi with
              | none => none
              | some (A1, pivot) =>
                if pivot - lo < hi - (pivot + 1) then
                  (qsortFuel A1 lo pivot fuel).bind fun A2 =>
                    qsortFuel A2 (pivot + 1) hi fuel
                else
                  (qsortFuel A1 (pivot + 1) hi fuel).bind fun A2 =>
                    qsortFuel A2 lo pivot fuel
            else some A) = some A3
          rw [if_pos hlh, heq]
          show (if p - lo < hi - (p + 1) then
              (qsortFuel A1 lo p fuel).bind fun A2 =>
                qsortFuel A2 (p + 1) hi fuel
            else
              (qsortFuel A1 (p + 1) hi fuel).bind fun A2 =>
                qsortFuel A2 lo p fuel) = some A3
          rw [if_neg hb, hqs1eq]
          exact hqs2eq
        · intro k hk
          rw [hlow3 k hk, hlow2 k (by omega), hlow1 k hk]
        · intro k hk
          rw [hhigh3 k (by omega), hhigh2 k hk, hhigh1 k hk]
        · exact combine_sorted (scoreAt A lo) lo p hi A3
            hA3lower hA3upper hsort3 hA3s2

/-- Models the evaluation loop of `Trivial::evaluate` (lines 163-166): each
candidate handle of the pool is paired with its score
`env->evaluate(_pool[i])`.  The pairing renders in one list the two
parallel arrays `_pool` and `_score` right after the loop. -/
def evaluatePool {C : Type} (eval : C → ℚ) (pool : List C) : List (C × ℚ) :=
  pool.map fun c => (c, eval c)

/-- Models the sort call of `Trivial::evaluate` (line 169):
`qsort(0, _count - 1)` over the paired arrays, with fuel the termination
theorem shows sufficient. -/
def sortPairs {C : Type} (A : List (C × ℚ)) : Option (List (C × ℚ)) :=
  qsortFuel A 0 (A.length - 1) A.length

theorem sortPairs_spec {C : Type} (A : List (C × ℚ)) (hA : A ≠ []) :
    ∃ S, sortPairs A = some S ∧ S.length = A.length ∧ List.Perm S A ∧
      (∀ k1 k2, k1 ≤ k2 → k2 ≤ A.length - 1 → scoreAt S k1 ≤ scoreAt S k2) := by
  have hlen : 0 < A.length := List.length_pos.mpr hA
  obtain ⟨S, h1, h2, h3, _, _, h6⟩ :=
    qsortFuel_spec A.length A 0 (A.length - 1) (by omega) (by omega)
  exact ⟨S, h1, h2, h3, fun k1 k2 hk1 hk2 => h6 k1 k2 (Nat.zero_le _) hk1 hk2⟩

/-- C1: after every evaluation pass the ranking step (`qsort(0, _count-1)`
inside `Trivial::evaluate`) restores the ascending-score invariant
(`scores[i] <= scores[i+1]` at every adjacent pair of valid indices), the
handle array is permuted in lockstep with the score array (the multiset of
(handle, score) pairs after sorting is a permutation of the pairs produced
by evaluation), and each pool entry still carries its own evaluation score. -/
theorem C1_evaluate_sort_invariant {C : Type} (eval : C → ℚ)
    (pool : List C) (hpool : pool ≠ []) :
    ∃ S, sortPairs (evaluatePool eval pool) = some S ∧
      (∀ i, i + 1 < S.length → scoreAt S i ≤ scoreAt S (i + 1)) ∧
      List.Perm S (evaluatePool eval pool) ∧
      (∀ x, x ∈ S → x.2 = eval x.1) := by
  have hne : evaluatePool eval pool ≠ [] := by
    unfold evaluatePool
    simpa using hpool
  obtain ⟨S, h1, h2, h3, h4⟩ := sortPairs_spec (evaluatePool eval pool) hne
  refine ⟨S, h1, ?_, h3, ?_⟩
  · intro i hi
    refine h4 i (i + 1) (Nat.le_succ i) ?_
    rw [h2] at hi
    omega
  · intro x hx
    have hx2 : x ∈ evaluatePool eval pool := h3.mem_iff.mp hx
    unfold evaluatePool at hx2
    obtain ⟨c, _, hc⟩ := List.mem_map.mp hx2
    rw [← hc]

/-- Concrete run of the C1 theorem on a four-candidate pool. -/
theorem C1_evaluate_sort_invariant_witness :
    ∃ S, sortPairs (evaluatePool (fun n : ℕ => (6 : ℚ) - n) [2, 0, 3, 1]) = some S ∧
      (∀ i, i + 1 < S.length → scoreAt S i ≤ scoreAt S (i + 1)) ∧
      List.Perm S (evaluatePool (fun n : ℕ => (6 : ℚ) - n) [2, 0, 3, 1]) ∧
      (∀ x, x ∈ S → x.2 = (6 : ℚ) - x.1) :=
  C1_evaluate_sort_invariant (fun n : ℕ => (6 : ℚ) - n) [2, 0, 3, 1]
    (by decide)

/-- C9: the recursive partition-exchange sort terminates on every score
array and in-bounds range `lo ≤ hi`: the split point returned by
`partition` always satisfies `lo ≤ j < hi` (the pivot being the first
element of the sub-range), so both recursive calls act on strictly smaller
sub-ranges and recursion depth `hi - lo + 1` suffices. -/
theorem C9_qsort_terminates {C : Type} (A : List (C × ℚ)) (lo hi : ℕ)
    (h1 : lo ≤ hi) (h2 : hi < A.length) :
    (lo < hi → ∃ A2 j, partitionHL A lo hi = some (A2, j) ∧ lo ≤ j ∧ j < hi) ∧
    (qsortFuel A lo hi (hi - lo + 1)).isSome := by
  constructor
  · intro hlh
    obtain ⟨A2, j, heq, hj1, hj2, _⟩ := partitionHL_spec A lo hi h2 hlh
    exact ⟨A2, j, heq, hj1, hj2⟩
  · obtain ⟨A2, heq, _⟩ := qsortFuel_spec (hi - lo + 1) A lo hi h2 (by omega)
    rw [heq]
    rfl

/-- Concrete run of the C9 theorem on a five-element range. -/
theorem C9_qsort_terminates_witness :
    ((0 : ℕ) < 4 → ∃ A2 j,
      partitionHL [((0 : ℕ), (5 : ℚ)), (1, 2), (2, 9), (3, 1), (4, 7)] 0 4 =
        some (A2, j) ∧ 0 ≤ j ∧ j < 4) ∧
    (qsortFuel [((0 : ℕ), (5 : ℚ)), (1, 2), (2, 9), (3, 1), (4, 7)] 0 4
      (4 - 0 + 1)).isSome :=
  C9_qsort_terminates [((0 : ℕ), (5 : ℚ)), (1, 2), (2, 9), (3, 1), (4, 7)] 0 4
    (by decide) (by decide)

theorem getElem?_lt_length {α : Type} {l : List α} {n : ℕ} {a : α}
    (h : l[n]? = some a) : n < l.length := by
  rw [List.getElem?_eq_some] at h
  exact h.1

/-- C8: with a deterministic (pure per candidate) `evaluate` and
`eliteCount ≥ 1`, the minimum score `scores[0]` observed at successive
evaluation passes is non-increasing: recombination (`train`, lines
114-119) only overwrites the pool slots in `[eliteCount, count)`, so the
candidate ranked first survives into the next pass and bounds the next
minimum from above.  `pool2` is the pool produced by any recombination
that keeps the elite slots of the sorted pool `S`. -/
theorem C8_best_score_monotone {C : Type} (eval : C → ℚ)
    (pool pool2 : List C) (S S2 : List (C × ℚ)) (eliteCount : ℕ)
    (helite : 1 ≤ eliteCount)
    (hpool : pool ≠ [])
    (hS : sortPairs (evaluatePool eval pool) = some S)
    (hkeep : ∀ i, i < eliteCount → pool2[i]? = (S[i]?).map Prod.fst)
    (hS2 : sortPairs (evaluatePool eval pool2) = some S2) :
    scoreAt S2 0 ≤ scoreAt S 0 := by
  have hne : evaluatePool eval pool ≠ [] := by
    unfold evaluatePool
    simpa using hpool
  obtain ⟨S', h1', h2', h3', _⟩ := sortPairs_spec (evaluatePool eval pool) hne
  rw [hS] at h1'
  obtain rfl : S = S' := Option.some.inj h1' 
  have hSlen : 0 < S.length := by
    rw [h2']
    unfold evaluatePool
    simp
    exact List.length_pos.mpr hpool
  obtain ⟨x, hx⟩ := exists_getElem? S 0 hSlen
  have hx_mem : x ∈ evaluatePool eval pool := h3'.mem_iff.mp (List.getElem?_mem hx)
  have hx_eval : x.2 = eval x.1 := by
    unfold evaluatePool at hx_mem
    obtain ⟨c, _, hc⟩ := List.mem_map.mp hx_mem
    rw [← hc]
  have hp2 : pool2[0]? = some x.1 := by
    rw [hkeep 0 helite, hx]
    rfl
  have hmem2 : (x.1, eval x.1) ∈ evaluatePool eval pool2 := by
    unfold evaluatePool
    rw [List.mem_map]
    exact ⟨x.1, List.getElem?_mem hp2, rfl⟩
  have hne2 : evaluatePool eval pool2 ≠ [] :=
    List.ne_nil_of_mem hmem2
  obtain ⟨S2', h1'', h2'', h3'', h4''⟩ :=
    sortPairs_spec (evaluatePool eval pool2) hne2
  rw [hS2] at h1''
  obtain rfl : S2 = S2' := Option.some.inj h1'' 
  have hmem2' : (x.1, eval x.1) ∈ S2 := h3''.mem_iff.mpr hmem2
  obtain ⟨t, ht⟩ := List.mem_iff_getElem?.mp hmem2'
  have htlt : t < S2.length := getElem?_lt_length ht
  have hstep : scoreAt S2 0 ≤ scoreAt S2 t := by
    refine h4'' 0 t (Nat.zero_le t) ?_
    rw [h2''] at htlt
    omega
  calc scoreAt S2 0 ≤ scoreAt S2 t := hstep
    _ = eval x.1 := by rw [scoreAt_of_getElem? ht]
    _ = x.2 := hx_eval.symm
    _ = scoreAt S 0 := (scoreAt_of_getElem? hx).symm

/-- Concrete run of the C8 theorem: pool `[2,0,1]` sorts to
`[(0,0),(1,1),(2,2)]`; keeping elite slot 0 and recombining the rest to
`[0,5,7]` re-evaluates to minimum `0 ≤ 0`. -/
theorem C8_best_score_monotone_witness :
    scoreAt [((0 : ℕ), (0 : ℚ)), (5, 5), (7, 7)] 0 ≤
      scoreAt [((0 : ℕ), (0 : ℚ)), (1, 1), (2, 2)] 0 :=
  C8_best_score_monotone (fun n : ℕ => (n : ℚ)) [2, 0, 1] [0, 5, 7]
    [(0, 0), (1, 1), (2, 2)] [(0, 0), (5, 5), (7, 7)] 1
    (by decide) (by decide) (by decide)
    (by intro i hi; interval_cases i; decide) (by decide)

/-- One iteration of the elite-weighting loop of `Trivial::train`
(lines 105-109): `_reverse[eliteCount - i] = _score[i];
totalScore += _score[i];`.  The buffer holds `Option ℚ`, `none` standing
for a double that has never been written. -/
def reverseStep (scores : List ℚ) (eliteCount : ℕ)
    (st : List (Option ℚ) × ℚ) (i : ℕ) : List (Option ℚ) × ℚ :=
  (st.1.set (eliteCount - i) (some (scores.getD i 0)), st.2 + scores.getD i 0)

/-- The elite-weighting loop of `Trivial::train` (lines 105-109) run over
`i = 0, …, eliteCount - 1`, starting from `totalScore = 0` and the freshly
allocated (uninitialized) `_reverse` buffer of capacity `capacity`. -/
def reverseState (scores : List ℚ) (eliteCount capacity : ℕ) :
    List (Option ℚ) × ℚ :=
  (List.range eliteCount).foldl (reverseStep scores eliteCount)
    (List.replicate capacity none, 0)

theorem reverseState_fold (scores : List ℚ) (eliteCount capacity : ℕ)
    (hcap : eliteCount < capacity) :
    ∀ n, n ≤ eliteCount →
      (((List.range n).foldl (reverseStep scores eliteCount)
          (List.replicate capacity none, 0)).2 = (scores.take n).sum) ∧
      (((List.range n).foldl (reverseStep scores eliteCount)
          (List.replicate capacity none, 0)).1.length = capacity) ∧
      (∀ i, i < n →
        ((List.range n).foldl (reverseStep scores eliteCount)
          (List.replicate capacity none, 0)).1[eliteCount - i]? =
          some (some (scores.getD i 0))) ∧
      (∀ j, (∀ i, i < n → eliteCount - i ≠ j) →
        ((List.range n).foldl (reverseStep scores eliteCount)
          (List.replicate capacity none, 0)).1[j]? =
          (List.replicate capacity (none : Option ℚ))[j]?) := by
  intro n
  induction n with
  | zero =>
    intro _
    refine ⟨by simp, by simp, fun i hi => absurd hi (Nat.not_lt_zero i),
      fun j _ => rfl⟩
  | succ n ih =>
    intro hn
    obtain ⟨iht, ihl, ihw, ihu⟩ := ih (by omega)
    rw [List.range_succ, List.foldl_append]
    simp only [List.foldl_cons, List.foldl_nil, reverseStep]
    refine ⟨?_, ?_, ?_, ?_⟩
    · show _ + scores.getD n 0 = _
      rw [iht, List.take_succ, List.sum_append]
      cases hsn : scores[n]? with
      | none =>
        have : scores.length ≤ n := by
          by_contra hc
          push_neg at hc
          rw [List.getElem?_eq_getElem hc] at hsn
          exact Option.noConfusion hsn
        rw [List.getD_eq_default _ _ this]
        simp
      | some v =>
        have : scores.getD n 0 = v := by
          rw [List.getD_eq_getElem?_getD, hsn]
          rfl
        rw [this]
        simp
    · show (List.set _ (eliteCount - n) _).length = capacity
      rw [List.length_set]
      exact ihl
    · intro i hi
      show (List.set _ (eliteCount - n) _)[eliteCount - i]? = _
      rcases Nat.lt_succ_iff_lt_or_eq.mp hi with hi' | hi'
      · rw [List.getElem?_set_ne (by omega)]
        exact ihw i hi'
      · rw [hi', List.getElem?_set_eq (by rw [ihl]; omega)]
    · intro j hj
      show (List.set _ (eliteCount - n) _)[j]? = _
      rw [List.getElem?_set_ne (hj n (Nat.lt_succ_self n))]
      exact ihu j (fun i hi => hj i (by omega))

/-- C3: the elite-weighting buffer and the total elite weight are computed
from `scores[0, eliteCount)` only: the total is the sum of the elite
scores, the construction writes the elite score of rank `i` at the
reversed position `eliteCount - i` (so positions `1..eliteCount` are
written), and position `0` — together with every position above
`eliteCount` — is left uninitialized. -/
theorem C3_reverse_buffer (scores : List ℚ) (eliteCount capacity : ℕ)
    (hcap : eliteCount < capacity) :
    (reverseState scores eliteCount capacity).2 = (scores.take eliteCount).sum ∧
    (∀ i, i < eliteCount →
      (reverseState scores eliteCount capacity).1[eliteCount - i]? =
        some (some (scores.getD i 0))) ∧
    ((reverseState scores eliteCount capacity).1[0]? = some none) ∧
    (∀ j, eliteCount < j → j < capacity →
      (reverseState scores eliteCount capacity).1[j]? = some none) := by
  obtain ⟨ht, hl, hw, hu⟩ :=
    reverseState_fold scores eliteCount capacity hcap eliteCount
      (Nat.le_refl eliteCount)
  refine ⟨ht, hw, ?_, ?_⟩
  · rw [show (reverseState scores eliteCount capacity).1 =
      ((List.range eliteCount).foldl (reverseStep scores eliteCount)
        (List.replicate capacity none, 0)).1 from rfl]
    rw [hu 0 (fun i hi => by omega)]
    simp [List.getElem?_replicate]
    omega
  · intro j hj1 hj2
    rw [show (reverseState scores eliteCount capacity).1 =
      ((List.range eliteCount).foldl (reverseStep scores eliteCount)
        (List.replicate capacity none, 0)).1 from rfl]
    rw [hu j (fun i hi => by omega)]
    simp [List.getElem?_replicate]
    omega

/-- Concrete run of the C3 theorem: three elite scores in a buffer of
capacity five. -/
theorem C3_reverse_buffer_witness :
    (reverseState [3, 5, 9, 100] 3 5).2 = ([3, 5, 9, 100].take 3).sum ∧
    (∀ i, i < 3 →
      (reverseState [3, 5, 9, 100] 3 5).1[3 - i]? =
        some (some ([3, 5, 9, 100].getD i 0))) ∧
    ((reverseState [3, 5, 9, 100] 3 5).1[0]? = some none) ∧
    (∀ j, 3 < j → j < 5 →
      (reverseState [3, 5, 9, 100] 3 5).1[j]? = some none) :=
  C3_reverse_buffer [3, 5, 9, 100] 3 5 (by decide)

/-- The buffer indices the elite-weighting loop of `Trivial::train`
(lines 105-109) writes, in loop order: `eliteCount - i` for
`i = 0, …, eliteCount - 1`. -/
def reverseWriteIndices (eliteCount : ℕ) : List ℕ :=
  (List.range eliteCount).map fun i => eliteCount - i

/-- C10: the weight-buffer construction writes exactly the indices
`eliteCount - i` for `i ∈ [0, eliteCount)`, i.e. indices 1 through
`eliteCount` inclusive; against the buffer capacity `count` every write is
in bounds iff `eliteCount < count`, and when `eliteCount = count`
(elite fraction 1.0) the very first write already lands at index
`eliteCount`, out of bounds. -/
theorem C10_reverse_write_bounds (eliteCount count : ℕ) (hcount : 1 ≤ count) :
    (∀ j, j ∈ reverseWriteIndices eliteCount ↔ 1 ≤ j ∧ j ≤ eliteCount) ∧
    ((∀ j, j ∈ reverseWriteIndices eliteCount → j < count) ↔
      eliteCount < count) ∧
    (eliteCount = count →
      (reverseWriteIndices eliteCount).head? = some eliteCount ∧
      ¬ eliteCount < count) := by
  have hmem : ∀ j, j ∈ reverseWriteIndices eliteCount ↔ 1 ≤ j ∧ j ≤ eliteCount := by
    intro j
    unfold reverseWriteIndices
    rw [List.mem_map]
    constructor
    · rintro ⟨i, hi, rfl⟩
      rw [List.mem_range] at hi
      omega
    · rintro ⟨hj1, hj2⟩
      exact ⟨eliteCount - j, List.mem_range.mpr (by omega), by omega⟩
  refine ⟨hmem, ⟨?_, ?_⟩, ?_⟩
  · intro hall
    by_cases he : eliteCount = 0
    · omega
    · exact hall eliteCount ((hmem eliteCount).mpr ⟨by omega, Nat.le_refl _⟩)
  · intro hlt j hj
    have := (hmem j).mp hj
    omega
  · intro heq
    constructor
    · unfold reverseWriteIndices
      obtain ⟨k, rfl⟩ : ∃ k, eliteCount = k + 1 := ⟨count - 1, by omega⟩
      rw [List.range_succ_eq_map]
      rfl
    · omega

/-- Concrete run of the C10 theorem at `eliteCount = count = 4`. -/
theorem C10_reverse_write_bounds_witness :
    (∀ j, j ∈ reverseWriteIndices 4 ↔ 1 ≤ j ∧ j ≤ 4) ∧
    ((∀ j, j ∈ reverseWriteIndices 4 → j < 4) ↔ 4 < 4) ∧
    (4 = 4 → (reverseWriteIndices 4).head? = some 4 ∧ ¬ 4 < 4) :=
  C10_reverse_write_bounds 4 4 (by decide)

/-- Strategy-activation cascade of `Trivial::mutate` (lines 137-152):
with at least two strategies left, draw `rnd` uniformly and apply the head
strategy when `rnd < threshold`, otherwise recurse on the tail; the
single-strategy overload (line 150) applies its strategy unconditionally,
without drawing.  The function returns the position (in caller-supplied
order) of the strategy whose `mutate` is invoked; `draws` lists the draw
made before each threshold test in order. -/
def mutateChoice : List ℚ → List ℚ → ℕ
  | _, [] => 0
  | _, [_] => 0
  | [], _ :: _ :: _ => 0
  | d :: ds, t :: t2 :: ts =>
    if d < t then 0 else mutateChoice ds (t2 :: ts) + 1

/-- Modelled from the spec cascade wording: the first strategy whose
threshold exceeds its draw, and the last strategy as unconditional
fallback when no threshold exceeds its draw. -/
def specFirstHit : List ℚ → List ℚ → Option ℕ
  | d :: ds, t :: ts =>
    if d < t then some 0 else (specFirstHit ds ts).map (· + 1)
  | _, _ => none

/-- Modelled from the spec cascade wording, fallback included. -/
def specCascadeChoice (draws thresholds : List ℚ) : ℕ :=
  (specFirstHit draws thresholds).getD (thresholds.length - 1)

/-- C4: for every slot and every sequence of per-strategy uniform draws,
the strategy applied is the first one, in caller-supplied order, whose
threshold exceeds its draw; when no threshold exceeds its draw the last
strategy is applied unconditionally.  The chosen position is always a
valid strategy position, so every non-elite slot receives exactly one
`mutate` call. -/
theorem C4_strategy_cascade (draws thresholds : List ℚ)
    (hne : thresholds ≠ []) (hlen : draws.length = thresholds.length) :
    mutateChoice draws thresholds = specCascadeChoice draws thresholds ∧
    mutateChoice draws thresholds < thresholds.length := by
  induction thresholds generalizing draws with
  | nil => exact absurd rfl hne
  | cons t ts ih =>
    cases ts with
    | nil =>
      rcases draws with - | ⟨d, ds⟩
      · simp at hlen
      · obtain rfl : ds = [] := by
          simpa using hlen
        constructor
        · show 0 = specCascadeChoice [d] [t]
          unfold specCascadeChoice specFirstHit
          by_cases h : d < t
          · rw [if_pos h]
            rfl
          · rw [if_neg h]
            rfl
        · show 0 < 1
          exact Nat.one_pos
    | cons t2 ts2 =>
      rcases draws with - | ⟨d, ds⟩
      · simp at hlen
      · have hlen2 : ds.length = (t2 :: ts2).length := by
          simpa using hlen
        obtain ⟨ihe, ihb⟩ := ih ds (by simp) hlen2
        by_cases h : d < t
        · constructor
          · show (if d < t then 0 else mutateChoice ds (t2 :: ts2) + 1) = _
            rw [if_pos h]
            unfold specCascadeChoice specFirstHit
            rw [if_pos h]
            rfl
          · show (if d < t then 0 else mutateChoice ds (t2 :: ts2) + 1) < _
            rw [if_pos h]
            simp
        · constructor
          · show (if d < t then 0 else mutateChoice ds (t2 :: ts2) + 1) = _
            rw [if_neg h]
            unfold specCascadeChoice specFirstHit
            rw [if_neg h]
            rw [ihe]
            unfold specCascadeChoice
            cases hfh : specFirstHit ds (t2 :: ts2) with
            | none =>
              simp [hfh]
            | some k =>
              simp [hfh]
          · show (if d < t then 0 else mutateChoice ds (t2 :: ts2) + 1) < _
            rw [if_neg h]
            simpa using ihb

/-- Concrete run of the C4 theorem: three strategies, second one fires. -/
theorem C4_strategy_cascade_witness :
    mutateChoice [3/5, 1/5, 9/10] [1/2, 1/4, 3/4] =
      specCascadeChoice [3/5, 1/5, 9/10] [1/2, 1/4, 3/4] ∧
    mutateChoice [3/5, 1/5, 9/10] [1/2, 1/4, 3/4] <
      ([1/2, 1/4, 3/4] : List ℚ).length :=
  C4_strategy_cascade [3/5, 1/5, 9/10] [1/2, 1/4, 3/4] (by decide) (by decide)

/-- Cumulative roulette loop of the example mutators
(`trivial.cpp` lines 121-124, 126-128 and 159-162):
`for(index = 0; cumulator < position; cumulator += score[index++]);` —
the recursion carries the part of the draw the cumulator still has to
cover; `none` models the C loop reading past the end of the weight
buffer. -/
def selectIndex : List ℚ → ℚ → Option ℕ
  | [], u => if 0 < u then none else some 0
  | w :: ws, u => if 0 < u then (selectIndex ws (u - w)).map (· + 1) else some 0

/-- Modelled from the spec wording of weighted sampling: the first index
whose cumulative weight (accumulated in rank order) exceeds the draw. -/
def specRouletteIndex : List ℚ → ℚ → Option ℕ
  | [], _ => none
  | w :: ws, u =>
    if u < w then some 0 else (specRouletteIndex ws (u - w)).map (· + 1)

/-- C5 counterexample: with weights `[5, 5]` and draw `u = 3` (inside
`(0, totalWeight)`), the spec's first index whose cumulative weight
exceeds `u` is `0`, but the source loop exits with `index = 1` and the
parent selected is `parents[1]`. -/
theorem C5_roulette_counterexample :
    (0 : ℚ) < 3 ∧ (3 : ℚ) < 5 + 5 ∧
    specRouletteIndex [5, 5] 3 = some 0 ∧
    selectIndex [5, 5] 3 = some 1 ∧
    selectIndex [5, 5] 3 ≠ specRouletteIndex [5, 5] 3 := by
  have h1 : specRouletteIndex [5, 5] 3 = some 0 := by
    simp only [specRouletteIndex]
    norm_num
  have h2 : selectIndex [5, 5] 3 = some 1 := by
    simp only [selectIndex]
    norm_num
  refine ⟨by norm_num, by norm_num, h1, h2, ?_⟩
  rw [h1, h2]
  decide

/-- C5 amended: for every weight buffer and every draw
`0 < u ≤ totalWeight`, the loop exits with `index` equal to the number of
weights consumed — the least `k` whose first `k` weights sum to at least
`u` — and the parent used is the one at that position, i.e. one past the
last weight needed to reach the draw. -/
theorem C5_roulette_amended (w : List ℚ) (u : ℚ) (hu : 0 < u)
    (hsum : u ≤ w.sum) :
    ∃ k, selectIndex w u = some k ∧ u ≤ (w.take k).sum ∧
      ∀ m, m < k → (w.take m).sum < u := by
  induction w generalizing u with
  | nil =>
    rw [List.sum_nil] at hsum
    exact absurd (lt_of_lt_of_le hu hsum) (lt_irrefl 0)
  | cons a ws ih =>
    by_cases hua : u ≤ a
    · refine ⟨1, ?_, ?_, ?_⟩
      · show (if 0 < u then (selectIndex ws (u - a)).map (· + 1)
            else some 0) = some 1
        rw [if_pos hu]
        cases ws with
        | nil =>
          show ((if 0 < u - a then none else some 0).map (· + 1)) = some 1
          rw [if_neg (by linarith)]
          rfl
        | cons b ws2 =>
          show ((if 0 < u - a then (selectIndex ws2 (u - a - b)).map (· + 1)
              else some 0).map (· + 1)) = some 1
          rw [if_neg (by linarith)]
          rfl
      · simpa using hua
      · intro m hm
        interval_cases m
        simpa using hu
    · push_neg at hua
      have hsum2 : u - a ≤ ws.sum := by
        rw [List.sum_cons] at hsum
        linarith
      obtain ⟨k, hk1, hk2, hk3⟩ := ih (u - a) (by linarith) hsum2
      refine ⟨k + 1, ?_, ?_, ?_⟩
      · show (if 0 < u then (selectIndex ws (u - a)).map (· + 1)
            else some 0) = some (k + 1)
        rw [if_pos hu, hk1]
        rfl
      · rw [List.take_succ_cons, List.sum_cons]
        linarith
      · intro m hm
        cases m with
        | zero => simpa using hu
        | succ m2 =>
          rw [List.take_succ_cons, List.sum_cons]
          have := hk3 m2 (by omega)
          linarith

/-- Concrete run of the C5 amended theorem at the counterexample input. -/
theorem C5_roulette_amended_witness :
    ∃ k, selectIndex [5, 5] 3 = some k ∧ (3 : ℚ) ≤ (([5, 5] : List ℚ).take k).sum ∧
      ∀ m, m < k → (([5, 5] : List ℚ).take m).sum < 3 :=
  C5_roulette_amended [5, 5] 3 (by norm_num)
    (by norm_num [List.sum_cons, List.sum_nil])

/-- Same-parent fix-up of `MateMutator::mutate`
(`trivial.cpp` lines 129-137): when the two drawn elite indices coincide,
the mate index is moved to a deterministic neighbour.  `size` is the
elite count handed to the mutator. -/
def neighborShift (index mate size : ℕ) : ℕ :=
  if index = mate then
    if mate = 0 then 1
    else if mate = size - 1 then size - 2
    else index + 1
  else mate

/-- C6: whenever both draws land on the same elite index (with
`eliteCount ≥ 2` and the index in bounds), the deterministic
neighbour-shift moves the mate to `index + 1` — or to `index - 1` when
`index` is the last elite position — and the resulting pair of parent
indices is always distinct (and in bounds). -/
theorem C6_neighbor_shift (index mate size : ℕ) (hsize : 2 ≤ size)
    (hindex : index < size) (hmate : mate < size) :
    neighborShift index mate size ≠ index ∧
    neighborShift index mate size < size ∧
    (index = mate →
      ((index ≠ size - 1 → neighborShift index mate size = index + 1) ∧
       (index = size - 1 → neighborShift index mate size = index - 1))) := by
  unfold neighborShift
  split_ifs <;> omega

/-- Concrete run of the C6 theorem: both draws hit the last elite index. -/
theorem C6_neighbor_shift_witness :
    neighborShift 2 2 3 ≠ 2 ∧ neighborShift 2 2 3 < 3 ∧
    ((2 : ℕ) = 2 →
      (((2 : ℕ) ≠ 3 - 1 → neighborShift 2 2 3 = 2 + 1) ∧
       ((2 : ℕ) = 3 - 1 → neighborShift 2 2 3 = 2 - 1))) :=
  C6_neighbor_shift 2 2 3 (by decide) (by decide) (by decide)

/-- Observable outcome of one `Trivial::train` run: the returned tuple
`(generation, minimum, number)` plus instrumentation of the collaborator
calls the claims talk about.  `minimum = none` models the local
`double minimum;` never having been assigned. -/
structure TrainResult (C : Type) where
  generationsRun : ℕ
  minimum : Option ℚ
  number : ℕ
  evalPasses : ℕ
  mutateCalls : ℕ
  reserveCalled : Bool
deriving DecidableEq

/-- State carried between iterations of the generation loop of
`Trivial::train` (lines 98-120). -/
structure LoopState (C : Type) where
  pool : List C
  generation : ℕ
  minimum : Option ℚ
  evalPasses : ℕ
  mutateCalls : ℕ
deriving DecidableEq

/-- Models one call of `Trivial::evaluate` (lines 161-172): score the
pool, sort the paired arrays, and read `_score[0]`. -/
def evaluateStep {C : Type} (eval : C → ℚ) (pool : List C) :
    Option (List (C × ℚ) × ℚ) :=
  (sortPairs (evaluatePool eval pool)).map fun S => (S, scoreAt S 0)

/-- Generation loop of `Trivial::train` (lines 100-120):
`for(generation = 0; (generation < maxGen) && ((minimum = evaluate(env)) >
minErr); ++generation) { … }`.  The budget test short-circuits before
`evaluate` runs; the body recombines every slot of `[eliteCount, count)`
(one `mutate` call each) through the abstract `recomb`.  Fuel is
`maxGen - generation`, so it never runs out; `none` on the exhausted-fuel
path (and on a failed sort) is the totality artifact. -/
def trainLoop {C : Type} (eval : C → ℚ) (recomb : List (C × ℚ) → List C)
    (count eliteCount maxGen : ℕ) (minErr : ℚ) :
    ℕ → LoopState C → Option (LoopState C)
  | 0, st => if st.generation < maxGen then none else some st
  | fuel + 1, st =>
    if st.generation < maxGen then
      match evaluateStep eval st.pool with
      | none => none
      | some (S, m) =>
        if minErr < m then
          trainLoop eval recomb count eliteCount maxGen minErr fuel
            ⟨recomb S, st.generation + 1, some m, st.evalPasses + 1,
              st.mutateCalls + (count - eliteCount)⟩
        else
          some ⟨S.map Prod.fst, st.generation, some m, st.evalPasses + 1,
            st.mutateCalls⟩
    else some st

/-- Models `Trivial::train` (lines 88-131) for a given `eliteCount`:
reserve the pool (the environment hands over `initPool`; no configuration
check of any kind precedes it), run the generation loop, then return
`(generation, minimum, number)` with `number = min eliteCount size`. -/
def trainWithCount {C : Type} (eval : C → ℚ)
    (recomb : List (C × ℚ) → List C) (count eliteCount maxGen : ℕ)
    (minErr : ℚ) (size : ℕ) (initPool : List C) : Option (TrainResult C) :=
  match trainLoop eval recomb count eliteCount maxGen minErr maxGen
      ⟨initPool, 0, none, 0, 0⟩ with
  | none => none
  | some st =>
    some ⟨st.generation, st.minimum, min eliteCount size, st.evalPasses,
      st.mutateCalls, true⟩

/-- Models `Trivial::train` including line 93:
`unsigned int eliteCount = _count * eliteSize;` — the double product is
truncated to the unsigned integer below it. -/
def train {C : Type} (eval : C → ℚ) (recomb : List (C × ℚ) → List C)
    (count : ℕ) (eliteSize : ℚ) (maxGen : ℕ) (minErr : ℚ) (size : ℕ)
    (initPool : List C) : Option (TrainResult C) :=
  trainWithCount eval recomb count ⌊(count : ℚ) * eliteSize⌋₊ maxGen minErr
    size initPool

/-- C2: calling `train` with `maxGenerations = 0` returns
`generationsRun = 0` and zero `mutate` calls, but — because the budget
test `generation < maxGen` short-circuits the loop condition before
`evaluate` can run — it performs zero evaluation passes and returns the
never-assigned local `minimum` (modelled `none`) instead of the minimum
score of the generation-0 population. -/
theorem C2_max_generations_zero {C : Type} (eval : C → ℚ)
    (recomb : List (C × ℚ) → List C) (count : ℕ) (eliteSize : ℚ)
    (minErr : ℚ) (size : ℕ) (initPool : List C) :
    train eval recomb count eliteSize 0 minErr size initPool =
      some ⟨0, none, min ⌊(count : ℚ) * eliteSize⌋₊ size, 0, 0, true⟩ := by
  rfl

/-- C7: `train` performs no configuration validation whatsoever: whatever
the configuration — here `count = 4` with `eliteFraction = 3/2` outside
`[0, 1]`, giving `eliteCount = 6 > count` — the pool is reserved, a full
generation evaluates and the run completes normally, reporting no error
(the result carries no error channel at all). -/
theorem C7_no_config_validation :
    train (fun n : ℕ => ((n + 1 : ℕ) : ℚ)) (fun S => S.map Prod.fst) 4 (3 / 2)
      1 0 8 [3, 1, 2, 0] =
      some ⟨1, some 1, min 6 8, 1, 0, true⟩ := by
  have hE : ⌊((4 : ℕ) : ℚ) * (3 / 2)⌋₊ = 6 := by norm_num
  unfold train
  rw [hE]
  decide

end HeadlessGA
